import Mathlib

/-!
Verification of the sandboxed linear-memory manager
(`src/core/runtime/impl/wasm_memory_impl.hpp`, class `kagome::runtime::WasmMemoryImpl`).

The class owns a contiguous byte buffer (`std::vector<char> memory_`), a bump
frontier (`offset_`), and two address-to-size tables (`allocated`,
`deallocated`).  The inline templates `aligned`, `set` and `get` are embedded
from the source; the out-of-line method bodies (`resize`, `allocate`,
`deallocate`, `freealloc`, `findContaining`, `growAlloc` and the
`load*`/`store*` family) are only declared in the available source, so they are
modelled from the specification, as marked on each definition.

Addresses (`WasmPointer`) and sizes (`SizeType`) are unsigned machine integers
of one common width; they are embedded as `Nat`, with the width bound
`2 ^ 32` made explicit where overflow matters.  Bytes are `Nat` values below
256.  Host-dependent aspects of the C++ code — the numeric value of the
buffer's base pointer (used by the `aligned` test) and the machine byte order
(used by the typed fast path) — are captured by an explicit `Host` record.
-/

namespace KagomeWasm

/-- One wasm page, 4096 bytes (see the note on `WasmMemoryImpl`). -/
def pageSize : Nat := 4096

/-- Number of values of the common address/size width (32-bit wasm pointers). -/
def addrSpace : Nat := 2 ^ 32

/-- Smallest multiple of `pageSize` that is `≥ n`. -/
def roundUpPage (n : Nat) : Nat := (n + pageSize - 1) / pageSize * pageSize

/-- Machine byte orders a host may have. -/
inductive Endian
  | little
  | big
  deriving DecidableEq, Repr

/-- Host-machine parameters the C++ code depends on: the native byte order and
the numeric value of the buffer's base pointer (`&memory_[0]`). -/
structure Host where
  endian : Endian
  base : Nat
  deriving DecidableEq, Repr

/-- Little-endian byte serialization: byte `i` of the result is
`(v >>> (8*i)) % 256`; `n` is the width in bytes. -/
def leBytes : Nat → Nat → List Nat
  | 0, _ => []
  | n + 1, v => v % 256 :: leBytes n (v / 256)

/-- The object representation of an `n`-byte unsigned value `v` on a host with
byte order `e`. -/
def hostBytes (e : Endian) (n v : Nat) : List Nat :=
  match e with
  | .little => leBytes n v
  | .big => (leBytes n v).reverse

/-- Recover a value from its little-endian byte list. -/
def fromLeBytes : List Nat → Nat
  | [] => 0
  | b :: bs => b + 256 * fromLeBytes bs

/-- Read a value out of an object representation laid out with byte order `e`. -/
def decodeHost (e : Endian) (bs : List Nat) : Nat :=
  match e with
  | .little => fromLeBytes bs
  | .big => fromLeBytes bs.reverse

/-- Read `n` consecutive bytes of `m` starting at index `addr`. -/
def readBytes (m : List Nat) (addr n : Nat) : List Nat :=
  (m.drop addr).take n

/-- Overwrite the bytes of `m` at indices `[addr, addr + bs.length)` with `bs`. -/
def writeBytes (m : List Nat) (addr : Nat) (bs : List Nat) : List Nat :=
  m.take addr ++ bs ++ m.drop (addr + bs.length)

/-- `WasmMemoryImpl::aligned<T>`: the low bits of the host address are zero
(`0 == (uintptr_t)address & (sizeof(T) - 1)`); `tsz = sizeof(T)` is a power of
two and `p` is the numeric host address `base + offset`. -/
def aligned (tsz p : Nat) : Bool := (p &&& (tsz - 1)) == 0

/-- The aligned branch of `WasmMemoryImpl::set<T>`:
`*reinterpret_cast<T *>(&memory_[address]) = value` stores the object
representation of `value` — `sizeof(T)` bytes in the host's byte order. -/
def setDirect (h : Host) (n : Nat) (m : List Nat) (addr v : Nat) : List Nat :=
  writeBytes m addr (hostBytes h.endian n v)

/-- The misaligned branch of `WasmMemoryImpl::set<T>`:
`std::memcpy(&memory_[address], &value, sizeof(T))` copies the same object
representation byte by byte. -/
def setMemcpy (h : Host) (n : Nat) (m : List Nat) (addr v : Nat) : List Nat :=
  writeBytes m addr (hostBytes h.endian n v)

/-- `WasmMemoryImpl::set<T>` (embedded from the source template). -/
def set (h : Host) (n : Nat) (m : List Nat) (addr v : Nat) : List Nat :=
  if aligned n (h.base + addr) then setDirect h n m addr v
  else setMemcpy h n m addr v

/-- The aligned branch of `WasmMemoryImpl::get<T>`:
`return *reinterpret_cast<const T *>(&memory_[address])` reads `sizeof(T)`
bytes as a host-byte-order value. -/
def getDirect (h : Host) (n : Nat) (m : List Nat) (addr : Nat) : Nat :=
  decodeHost h.endian (readBytes m addr n)

/-- The misaligned branch of `WasmMemoryImpl::get<T>`:
`std::memcpy(&loaded, &memory_[address], sizeof(T)); return loaded` reads the
same bytes into the same host-byte-order representation. -/
def getMemcpy (h : Host) (n : Nat) (m : List Nat) (addr : Nat) : Nat :=
  decodeHost h.endian (readBytes m addr n)

/-- `WasmMemoryImpl::get<T>` (embedded from the source template). -/
def get (h : Host) (n : Nat) (m : List Nat) (addr : Nat) : Nat :=
  if aligned n (h.base + addr) then getDirect h n m addr
  else getMemcpy h n m addr

/-- Two's-complement reading of an unsigned `bits`-wide pattern. -/
def toSigned (bits v : Nat) : Int :=
  if v < 2 ^ (bits - 1) then (v : Int) else (v : Int) - 2 ^ bits

/-- An address-to-size table (`std::unordered_map<WasmPointer, SizeType>`).
Keys are unique in every state the class constructs. -/
abbrev Table := List (Nat × Nat)

/-- `unordered_map::find`, returning the mapped size. -/
def lookupKey (t : Table) (k : Nat) : Option Nat :=
  (t.find? (fun p => p.1 == k)).map (·.2)

/-- `unordered_map::erase`: drop the entry with key `k`. -/
def eraseKey (t : Table) (k : Nat) : Table :=
  t.filter (fun p => p.1 ≠ k)

/-- `map[k] = v`: insert or overwrite the entry at key `k`. -/
def insertKV (t : Table) (k v : Nat) : Table :=
  (k, v) :: eraseKey t k

/-- The state of a `WasmMemoryImpl` object: byte buffer `memory_`, frontier
`offset_`, allocation table `allocated`, free table `deallocated`. -/
structure MemState where
  memory : List Nat
  offset : Nat
  allocated : Table
  deallocated : Table
  deriving DecidableEq, Repr

/-- Modelled from the spec: the constructors (`WasmMemoryImpl()` and
`WasmMemoryImpl(SizeType)`, bodies not in the available source).  The default
size is one page; an explicit size is rounded up to a page multiple, and the
buffer is never smaller than one page.  The buffer starts zeroed and both
tables empty. -/
def initMem (size : Nat) : MemState :=
  { memory := List.replicate (max pageSize (roundUpPage size)) 0
    offset := 0
    allocated := []
    deallocated := [] }

/-- Resize a byte buffer to logical size `n`: truncate, or extend with zeros. -/
def bufResize (m : List Nat) (n : Nat) : List Nat :=
  m.take n ++ List.replicate (n - m.length) 0

/-- Modelled from the spec: `WasmMemoryImpl::resize` (body not in the available
source).  Sets the buffer's logical size to `newSize` — growth zero-fills the
new bytes and preserves existing ones, truncation discards the tail — and
touches nothing else: tables and frontier are unchanged. -/
def resize (st : MemState) (newSize : Nat) : MemState :=
  { st with memory := bufResize st.memory newSize }

/-- Modelled from the spec: `WasmMemoryImpl::findContaining` (body not in the
available source).  Best-fit scan of the free table: among entries whose size
is at least `size`, the one with the smallest size, ties broken by the lowest
address; `none` when no entry is large enough. -/
def findContaining : Table → Nat → Option (Nat × Nat)
  | [], _ => none
  | p :: rest, size =>
    match findContaining rest size with
    | none => if size ≤ p.2 then some p else none
    | some q =>
      if size ≤ p.2 ∧ (p.2 < q.2 ∨ (p.2 = q.2 ∧ p.1 < q.1)) then some p
      else some q

/-- Modelled from the spec: `WasmMemoryImpl::growAlloc` (body not in the
available source).  Bump allocation at the frontier: if the request would
overflow the address width the call fails with no state change; otherwise, if
`offset_ + size` exceeds the buffer size, the buffer first grows to the
smallest page multiple that fits, then `{offset_, size}` is recorded as
allocated and the frontier advances by `size`. -/
def growAlloc (st : MemState) (size : Nat) : Option Nat × MemState :=
  if addrSpace ≤ st.offset + size then (none, st)
  else
    let st' :=
      if st.memory.length < st.offset + size then
        resize st (roundUpPage (st.offset + size))
      else st
    (some st.offset,
      { st' with
        allocated := insertKV st'.allocated st.offset size
        offset := st.offset + size })

/-- Modelled from the spec: the reuse path of `WasmMemoryImpl::freealloc` (body
not in the available source).  Take the best-fit free chunk if one exists:
remove it, keep its leading `size` bytes as the new allocation, and re-insert
the tail as a free chunk unless the remainder is empty. -/
def freealloc (st : MemState) (size : Nat) : Option (Nat × MemState) :=
  match findContaining st.deallocated size with
  | none => none
  | some (a, t) =>
    some (a,
      { st with
        allocated := insertKV st.allocated a size
        deallocated :=
          if size < t then insertKV (eraseKey st.deallocated a) (a + size) (t - size)
          else eraseKey st.deallocated a })

/-- Modelled from the spec: `WasmMemoryImpl::allocate` (body not in the
available source).  Try to reuse a deallocated chunk; otherwise bump-allocate
at the frontier, growing the buffer if needed. -/
def allocate (st : MemState) (size : Nat) : Option Nat × MemState :=
  match freealloc st size with
  | some (a, st') => (some a, st')
  | none => growAlloc st size

/-- Modelled from the spec: `WasmMemoryImpl::deallocate` (body not in the
available source).  An address that is not an allocation-table key is a caller
error: the call returns no value and mutates nothing.  Otherwise the entry
moves from the allocation table to the free table and its size is returned. -/
def deallocate (st : MemState) (ptr : Nat) : Option Nat × MemState :=
  match lookupKey st.allocated ptr with
  | none => (none, st)
  | some size =>
    (some size,
      { st with
        allocated := eraseKey st.allocated ptr
        deallocated := insertKV st.deallocated ptr size })

/-- Modelled from the spec: the bounds-checked load of width `n` bytes (the
`loadN` bodies are not in the available source).  An access with
`addr + n > memory_.size()` is an out-of-bounds fault: no value is produced and
the state — returned unchanged as the second component, as by a `const`
method — is untouched.  In bounds, the value is read by `get` from the source. -/
def loadW (h : Host) (n : Nat) (st : MemState) (addr : Nat) :
    Option Nat × MemState :=
  (if addr + n ≤ st.memory.length then some (get h n st.memory addr) else none,
   st)

/-- `load8u` (bounds check modelled from the spec; byte read from the source). -/
def load8u (h : Host) (st : MemState) (addr : Nat) : Option Nat × MemState :=
  loadW h 1 st addr

/-- `load16u` (bounds check modelled from the spec; read via `get`). -/
def load16u (h : Host) (st : MemState) (addr : Nat) : Option Nat × MemState :=
  loadW h 2 st addr

/-- `load32u` (bounds check modelled from the spec; read via `get`). -/
def load32u (h : Host) (st : MemState) (addr : Nat) : Option Nat × MemState :=
  loadW h 4 st addr

/-- `load64u` (bounds check modelled from the spec; read via `get`). -/
def load64u (h : Host) (st : MemState) (addr : Nat) : Option Nat × MemState :=
  loadW h 8 st addr

/-- `load8s`: the unsigned pattern read two's-complement. -/
def load8s (h : Host) (st : MemState) (addr : Nat) : Option Int × MemState :=
  ((loadW h 1 st addr).1.map (toSigned 8), st)

/-- `load16s`: the unsigned pattern read two's-complement. -/
def load16s (h : Host) (st : MemState) (addr : Nat) : Option Int × MemState :=
  ((loadW h 2 st addr).1.map (toSigned 16), st)

/-- `load32s`: the unsigned pattern read two's-complement. -/
def load32s (h : Host) (st : MemState) (addr : Nat) : Option Int × MemState :=
  ((loadW h 4 st addr).1.map (toSigned 32), st)

/-- `load64s`: the unsigned pattern read two's-complement. -/
def load64s (h : Host) (st : MemState) (addr : Nat) : Option Int × MemState :=
  ((loadW h 8 st addr).1.map (toSigned 64), st)

/-- `load128` (modelled from the spec): an opaque 16-byte block read with the
same bounds check, no arithmetic interpretation and no byte-order dependence. -/
def load128 (st : MemState) (addr : Nat) : Option (List Nat) × MemState :=
  (if addr + 16 ≤ st.memory.length then some (readBytes st.memory addr 16)
   else none,
   st)

/-- Modelled from the spec: the bounds-checked store of width `n` bytes (the
`storeN` bodies are not in the available source).  Out of bounds is a fault:
`none`, and the caller's state is untouched.  In bounds, the bytes are written
by `set` from the source. -/
def storeW (h : Host) (n : Nat) (st : MemState) (addr v : Nat) :
    Option MemState :=
  if addr + n ≤ st.memory.length then
    some { st with memory := set h n st.memory addr v }
  else none

/-- `store8` (bounds check modelled from the spec; write via `set`). -/
def store8 (h : Host) (st : MemState) (addr v : Nat) : Option MemState :=
  storeW h 1 st addr v

/-- `store16` (bounds check modelled from the spec; write via `set`). -/
def store16 (h : Host) (st : MemState) (addr v : Nat) : Option MemState :=
  storeW h 2 st addr v

/-- `store32` (bounds check modelled from the spec; write via `set`). -/
def store32 (h : Host) (st : MemState) (addr v : Nat) : Option MemState :=
  storeW h 4 st addr v

/-- `store64` (bounds check modelled from the spec; write via `set`). -/
def store64 (h : Host) (st : MemState) (addr v : Nat) : Option MemState :=
  storeW h 8 st addr v

/-- `store128` (modelled from the spec): an opaque 16-byte block write with the
same bounds check; `bs` is the 16-byte array value. -/
def store128 (st : MemState) (addr : Nat) (bs : List Nat) : Option MemState :=
  if addr + 16 ≤ st.memory.length then
    some { st with memory := writeBytes st.memory addr bs }
  else none

/-- The address ranges `[p.1, p.1 + p.2)` and `[q.1, q.1 + q.2)` do not
overlap. -/
def EntDisj (p q : Nat × Nat) : Prop := p.1 + p.2 ≤ q.1 ∨ q.1 + q.2 ≤ p.1

/-- All entries of both tables, allocation table first. -/
def entries (st : MemState) : Table := st.allocated ++ st.deallocated

/-- The safety invariant of claim C7: entries of the union of the two tables
have pairwise disjoint ranges, every entry ends at or before the frontier, and
the frontier is within the buffer. -/
def Inv (st : MemState) : Prop :=
  List.Pairwise EntDisj (entries st) ∧
    (∀ p ∈ entries st, p.1 + p.2 ≤ st.offset) ∧
    st.offset ≤ st.memory.length

/-- States reachable from a freshly constructed manager by the public calls,
under their documented input contracts: `resize` is never asked for less than
one page, `store128` takes a 16-byte array.  A failed store leaves the state
as it was (`getD`); loads are `const` methods and do not transition the state
at all. -/
inductive Reachable (h : Host) : MemState → Prop
  | init (size : Nat) : Reachable h (initMem size)
  | alloc {st : MemState} (size : Nat) : Reachable h st →
      Reachable h (allocate st size).2
  | dealloc {st : MemState} (ptr : Nat) : Reachable h st →
      Reachable h (deallocate st ptr).2
  | store {st : MemState} (n addr v : Nat) : Reachable h st →
      Reachable h ((storeW h n st addr v).getD st)
  | storeBlock {st : MemState} (addr : Nat) (bs : List Nat) : Reachable h st →
      bs.length = 16 → Reachable h ((store128 st addr bs).getD st)
  | resizeCall {st : MemState} (newSize : Nat) : Reachable h st →
      pageSize ≤ newSize → Reachable h (resize st newSize)

/-- Like `Reachable`, but every explicit `resize` call keeps at least the
frontier: `offset_ ≤ newSize`, so the buffer is never truncated below the
frontier. -/
inductive ReachableNoShrink (h : Host) : MemState → Prop
  | init (size : Nat) : ReachableNoShrink h (initMem size)
  | alloc {st : MemState} (size : Nat) : ReachableNoShrink h st →
      ReachableNoShrink h (allocate st size).2
  | dealloc {st : MemState} (ptr : Nat) : ReachableNoShrink h st →
      ReachableNoShrink h (deallocate st ptr).2
  | store {st : MemState} (n addr v : Nat) : ReachableNoShrink h st →
      ReachableNoShrink h ((storeW h n st addr v).getD st)
  | storeBlock {st : MemState} (addr : Nat) (bs : List Nat) :
      ReachableNoShrink h st → bs.length = 16 →
      ReachableNoShrink h ((store128 st addr bs).getD st)
  | resizeCall {st : MemState} (newSize : Nat) : ReachableNoShrink h st →
      pageSize ≤ newSize → st.offset ≤ newSize →
      ReachableNoShrink h (resize st newSize)

/-! ### Table lemmas -/

theorem mem_eraseKey {t : Table} {k : Nat} {p : Nat × Nat} :
    p ∈ eraseKey t k ↔ p ∈ t ∧ p.1 ≠ k := by
  simp [eraseKey, List.mem_filter]

theorem eraseKey_sublist (t : Table) (k : Nat) :
    List.Sublist (eraseKey t k) t :=
  List.filter_sublist t

theorem lookupKey_some_mem {t : Table} {k v : Nat}
    (h : lookupKey t k = some v) : (k, v) ∈ t := by
  unfold lookupKey at h
  cases hf : t.find? (fun q => q.1 == k) with
  | none => rw [hf] at h; simp at h
  | some q =>
    rw [hf] at h
    have hq : q ∈ t := List.mem_of_find?_eq_some hf
    have hk := List.find?_some hf
    obtain ⟨a, b⟩ := q
    simp at hk h
    subst hk; subst h
    exact hq

theorem lookupKey_eraseKey (t : Table) (k : Nat) :
    lookupKey (eraseKey t k) k = none := by
  unfold lookupKey
  rw [List.find?_eq_none.mpr]
  · rfl
  · intro p hp
    have := mem_eraseKey.mp hp
    simp [this.2]

theorem lookupKey_none_not_mem {t : Table} {k : Nat}
    (h : lookupKey t k = none) : ∀ v, (k, v) ∉ t := by
  intro v hv
  unfold lookupKey at h
  cases hf : t.find? (fun p => p.1 == k) with
  | none =>
    have := List.find?_eq_none.mp hf (k, v) hv
    simp at this
  | some p => rw [hf] at h; simp at h

/-! ### `findContaining` lemmas -/

theorem findContaining_mem {t : Table} {s : Nat} {p : Nat × Nat}
    (h : findContaining t s = some p) : p ∈ t ∧ s ≤ p.2 := by
  induction t generalizing p with
  | nil => simp [findContaining] at h
  | cons q rest ih =>
    unfold findContaining at h
    cases hrec : findContaining rest s with
    | none =>
      rw [hrec] at h
      by_cases hq : s ≤ q.2
      · simp [hq] at h; subst h; exact ⟨List.mem_cons_self q rest, hq⟩
      · simp [hq] at h
    | some r =>
      rw [hrec] at h
      by_cases hc : s ≤ q.2 ∧ (q.2 < r.2 ∨ (q.2 = r.2 ∧ q.1 < r.1))
      · simp [hc] at h; subst h; exact ⟨List.mem_cons_self q rest, hc.1⟩
      · simp [hc] at h; subst h
        have := ih hrec
        exact ⟨List.mem_cons_of_mem q this.1, this.2⟩

theorem findContaining_none {t : Table} {s : Nat}
    (h : findContaining t s = none) : ∀ q ∈ t, q.2 < s := by
  induction t with
  | nil => intro q hq; simp at hq
  | cons p rest ih =>
    intro q hq
    unfold findContaining at h
    cases hrec : findContaining rest s with
    | none =>
      rw [hrec] at h
      by_cases hp : s ≤ p.2
      · simp [hp] at h
      · rcases List.mem_cons.mp hq with rfl | hq'
        · omega
        · exact ih hrec q hq'
    | some r =>
      rw [hrec] at h
      by_cases hc : s ≤ p.2 ∧ (p.2 < r.2 ∨ (p.2 = r.2 ∧ p.1 < r.1))
      · simp [hc] at h
      · simp [hc] at h

theorem findContaining_min {t : Table} {s : Nat} {p : Nat × Nat}
    (h : findContaining t s = some p) :
    ∀ q ∈ t, s ≤ q.2 → p.2 < q.2 ∨ (p.2 = q.2 ∧ p.1 ≤ q.1) := by
  induction t generalizing p with
  | nil => simp [findContaining] at h
  | cons a rest ih =>
    intro q hq hqs
    unfold findContaining at h
    cases hrec : findContaining rest s with
    | none =>
      rw [hrec] at h
      by_cases ha : s ≤ a.2
      · simp [ha] at h; subst h
        rcases List.mem_cons.mp hq with rfl | hq'
        · right; exact ⟨rfl, le_refl _⟩
        · exact absurd hqs (by have := findContaining_none hrec q hq'; omega)
      · simp [ha] at h
    | some r =>
      rw [hrec] at h
      by_cases hc : s ≤ a.2 ∧ (a.2 < r.2 ∨ (a.2 = r.2 ∧ a.1 < r.1))
      · simp [hc] at h; subst h
        rcases List.mem_cons.mp hq with rfl | hq'
        · right; exact ⟨rfl, le_refl _⟩
        · have hr := ih hrec q hq' hqs
          rcases hc.2 with h1 | h2
          · omega
          · omega
      · simp [hc] at h; subst h
        rcases List.mem_cons.mp hq with rfl | hq'
        · -- the head was adequate but not better than the recursive result
          rcases Decidable.not_and_iff_or_not.mp hc with hna | hnb
          · exact absurd hqs hna
          · push_neg at hnb
            omega
        · exact ih hrec q hq' hqs

theorem findContaining_isSome {t : Table} {s : Nat} {q : Nat × Nat}
    (hq : q ∈ t) (hs : s ≤ q.2) : (findContaining t s).isSome := by
  cases hf : findContaining t s with
  | none => exact absurd hs (by have := findContaining_none hf q hq; omega)
  | some p => rfl

/-! ### Byte-level lemmas -/

theorem leBytes_length (n v : Nat) : (leBytes n v).length = n := by
  induction n generalizing v with
  | zero => rfl
  | succ k ih => simp [leBytes, ih]

theorem hostBytes_length (e : Endian) (n v : Nat) :
    (hostBytes e n v).length = n := by
  cases e <;> simp [hostBytes, leBytes_length]

theorem fromLeBytes_leBytes {n v : Nat} (h : v < 256 ^ n) :
    fromLeBytes (leBytes n v) = v := by
  induction n generalizing v with
  | zero => simp [leBytes, fromLeBytes]; omega
  | succ k ih =>
    have hdiv : v / 256 < 256 ^ k := by
      rw [Nat.div_lt_iff_lt_mul (by norm_num : 0 < 256)]
      calc v < 256 ^ (k + 1) := h
        _ = 256 ^ k * 256 := by ring
    simp [leBytes, fromLeBytes, ih hdiv]
    omega

theorem decodeHost_hostBytes (e : Endian) {n v : Nat} (h : v < 256 ^ n) :
    decodeHost e (hostBytes e n v) = v := by
  cases e <;>
    simp [decodeHost, hostBytes, List.reverse_reverse, fromLeBytes_leBytes h]

theorem writeBytes_length {m : List Nat} {addr : Nat} {bs : List Nat}
    (h : addr + bs.length ≤ m.length) :
    (writeBytes m addr bs).length = m.length := by
  simp [writeBytes, List.length_take, List.length_drop]
  omega

theorem readBytes_writeBytes (m : List Nat) (addr : Nat) (bs : List Nat)
    (hb : addr ≤ m.length) :
    readBytes (writeBytes m addr bs) addr bs.length = bs := by
  unfold readBytes writeBytes
  have hlen : (m.take addr).length = addr := by
    simp [List.length_take]; omega
  rw [List.append_assoc, List.drop_left' hlen, List.take_left' rfl]

theorem set_eq_writeBytes (h : Host) (n : Nat) (m : List Nat) (addr v : Nat) :
    set h n m addr v = writeBytes m addr (hostBytes h.endian n v) := by
  unfold set setDirect setMemcpy
  exact ite_self _

theorem get_eq_decode (h : Host) (n : Nat) (m : List Nat) (addr : Nat) :
    get h n m addr = decodeHost h.endian (readBytes m addr n) := by
  unfold get getDirect getMemcpy
  exact ite_self _

theorem pow256_eq (n : Nat) : (256 : Nat) ^ n = 2 ^ (8 * n) := by
  rw [show (256 : Nat) = 2 ^ 8 from rfl, ← pow_mul]

theorem get_set_roundtrip (h : Host) {n : Nat} {m : List Nat} {addr v : Nat}
    (hb : addr + n ≤ m.length) (hv : v < 2 ^ (8 * n)) :
    get h n (set h n m addr v) addr = v := by
  rw [set_eq_writeBytes, get_eq_decode]
  have hl := hostBytes_length h.endian n v
  have hr : readBytes (writeBytes m addr (hostBytes h.endian n v)) addr n
      = hostBytes h.endian n v := by
    have hrw := readBytes_writeBytes m addr (hostBytes h.endian n v) (by omega)
    rwa [hl] at hrw
  rw [hr]
  exact decodeHost_hostBytes h.endian (by rw [pow256_eq]; exact hv)

theorem bufResize_length (m : List Nat) (n : Nat) :
    (bufResize m n).length = n := by
  simp [bufResize, List.length_take]
  omega

theorem bufResize_grow_eq {m : List Nat} {n : Nat} (h : m.length ≤ n) :
    bufResize m n = m ++ List.replicate (n - m.length) 0 := by
  unfold bufResize
  rw [List.take_of_length_le h]

theorem bufResize_get_low {m : List Nat} {n : Nat} (h : m.length ≤ n)
    {i : Nat} (hi : i < m.length) :
    (bufResize m n)[i]? = m[i]? := by
  rw [bufResize_grow_eq h]
  exact List.getElem?_append_left hi

theorem bufResize_get_high {m : List Nat} {n : Nat} (h : m.length ≤ n)
    {i : Nat} (h1 : m.length ≤ i) (h2 : i < n) :
    (bufResize m n)[i]? = some 0 := by
  rw [bufResize_grow_eq h, List.getElem?_append_right h1]
  rw [List.getElem?_eq_getElem (by simp [List.length_replicate]; omega)]
  simp

/-! ### Invariant preservation -/

theorem entDisj_symm : Symmetric EntDisj := by
  intro p q h
  unfold EntDisj at *
  omega

theorem roundUpPage_ge (n : Nat) : n ≤ roundUpPage n := by
  unfold roundUpPage pageSize
  omega

theorem roundUpPage_dvd (n : Nat) : roundUpPage n % pageSize = 0 := by
  unfold roundUpPage pageSize
  omega

theorem roundUpPage_min {n m : Nat} (h1 : n ≤ m) (h2 : m % pageSize = 0) :
    roundUpPage n ≤ m := by
  unfold roundUpPage pageSize
  unfold pageSize at h2
  omega

theorem entDisj_subrange {q : Nat × Nat} {a t s : Nat} (hst : s ≤ t)
    (h : EntDisj q (a, t)) : EntDisj q (a, s) ∧ EntDisj q (a + s, t - s) := by
  unfold EntDisj at *
  simp at *
  omega

theorem inv_initMem (size : Nat) : Inv (initMem size) := by
  refine ⟨List.Pairwise.nil, ?_, ?_⟩
  · intro p hp; simp [entries, initMem] at hp
  · simp [initMem, pageSize]

theorem inv_resize {st : MemState} {n : Nat} (h : Inv st)
    (hn : st.offset ≤ n) : Inv (resize st n) := by
  obtain ⟨h1, h2, _⟩ := h
  exact ⟨h1, h2, by simp [resize, bufResize_length]; exact hn⟩

theorem inv_storeW {h : Host} {n : Nat} {st st' : MemState} {addr v : Nat}
    (hInv : Inv st) (hs : storeW h n st addr v = some st') : Inv st' := by
  unfold storeW at hs
  by_cases hb : addr + n ≤ st.memory.length
  · rw [if_pos hb] at hs
    obtain ⟨h1, h2, h3⟩ := hInv
    cases hs
    refine ⟨h1, h2, ?_⟩
    simp only [set_eq_writeBytes]
    rw [writeBytes_length (by rw [hostBytes_length]; exact hb)]
    exact h3
  · rw [if_neg hb] at hs; cases hs

theorem inv_store128 {st st' : MemState} {addr : Nat} {bs : List Nat}
    (hInv : Inv st) (hlen : bs.length = 16)
    (hs : store128 st addr bs = some st') : Inv st' := by
  unfold store128 at hs
  by_cases hb : addr + 16 ≤ st.memory.length
  · rw [if_pos hb] at hs
    obtain ⟨h1, h2, h3⟩ := hInv
    cases hs
    refine ⟨h1, h2, ?_⟩
    rw [writeBytes_length (by rw [hlen]; exact hb)]
    exact h3
  · rw [if_neg hb] at hs; cases hs

theorem deallocate_eq_none {st : MemState} {ptr : Nat}
    (hl : lookupKey st.allocated ptr = none) :
    deallocate st ptr = (none, st) := by
  unfold deallocate
  rw [hl]

theorem deallocate_eq_some {st : MemState} {ptr s : Nat}
    (hl : lookupKey st.allocated ptr = some s) :
    deallocate st ptr =
      (some s,
        { st with
          allocated := eraseKey st.allocated ptr
          deallocated := insertKV st.deallocated ptr s }) := by
  unfold deallocate
  rw [hl]

theorem inv_deallocate {st : MemState} (ptr : Nat) (hInv : Inv st) :
    Inv (deallocate st ptr).2 := by
  cases hl : lookupKey st.allocated ptr with
  | none => rw [deallocate_eq_none hl]; exact hInv
  | some s =>
    rw [deallocate_eq_some hl]
    have hmem : (ptr, s) ∈ st.allocated := lookupKey_some_mem hl
    obtain ⟨h1, h2, h3⟩ := hInv
    rw [Inv, entries] at *
    simp only [insertKV]
    rw [List.pairwise_append] at h1
    obtain ⟨hPA, hPD, hX⟩ := h1
    refine ⟨?_, ?_, h3⟩
    · rw [List.pairwise_append]
      refine ⟨hPA.sublist (eraseKey_sublist _ _), ?_, ?_⟩
      · rw [List.pairwise_cons]
        refine ⟨?_, hPD.sublist (eraseKey_sublist _ _)⟩
        intro q hq
        exact hX (ptr, s) hmem q (mem_eraseKey.mp hq).1
      · intro x hx y hy
        rcases List.mem_cons.mp hy with rfl | hy'
        · obtain ⟨hxa, hxk⟩ := mem_eraseKey.mp hx
          refine List.Pairwise.forall entDisj_symm hPA hxa hmem ?_
          intro hcontra
          exact hxk (by rw [hcontra])
        · exact hX x (mem_eraseKey.mp hx).1 y (mem_eraseKey.mp hy').1
    · intro p hp
      simp only [List.mem_append] at hp
      rcases hp with hpa | hpd
      · have hpa' : p ∈ st.allocated := (eraseKey_sublist _ _).mem hpa
        exact h2 p (List.mem_append_left _ hpa')
      · rcases List.mem_cons.mp hpd with rfl | hpd'
        · exact h2 (ptr, s) (List.mem_append_left _ hmem)
        · have hpd'' : p ∈ st.deallocated := (eraseKey_sublist _ _).mem hpd'
          exact h2 p (List.mem_append_right _ hpd'')

theorem allocate_reuse_eq {st : MemState} {s a t : Nat}
    (hf : findContaining st.deallocated s = some (a, t)) :
    allocate st s =
      (some a,
        { st with
          allocated := insertKV st.allocated a s
          deallocated :=
            if s < t then
              insertKV (eraseKey st.deallocated a) (a + s) (t - s)
            else eraseKey st.deallocated a }) := by
  unfold allocate freealloc
  rw [hf]

theorem allocate_grow_eq {st : MemState} {s : Nat}
    (hf : findContaining st.deallocated s = none) :
    allocate st s = growAlloc st s := by
  unfold allocate freealloc
  rw [hf]

theorem growAlloc_eq_fail {st : MemState} {s : Nat}
    (h : addrSpace ≤ st.offset + s) : growAlloc st s = (none, st) := by
  unfold growAlloc
  rw [if_pos h]

theorem growAlloc_eq_grow {st : MemState} {s : Nat}
    (h1 : ¬ addrSpace ≤ st.offset + s)
    (h2 : st.memory.length < st.offset + s) :
    growAlloc st s =
      (some st.offset,
        { st with
          memory := bufResize st.memory (roundUpPage (st.offset + s))
          allocated := insertKV st.allocated st.offset s
          offset := st.offset + s }) := by
  unfold growAlloc
  rw [if_neg h1]
  simp only [if_pos h2, resize]

theorem growAlloc_eq_nogrow {st : MemState} {s : Nat}
    (h1 : ¬ addrSpace ≤ st.offset + s)
    (h2 : ¬ st.memory.length < st.offset + s) :
    growAlloc st s =
      (some st.offset,
        { st with
          allocated := insertKV st.allocated st.offset s
          offset := st.offset + s }) := by
  unfold growAlloc
  rw [if_neg h1]
  simp only [if_neg h2]

theorem inv_bump {st : MemState} {s : Nat} (hInv : Inv st)
    {mem : List Nat} (hlen : st.offset + s ≤ mem.length) :
    Inv { st with
          memory := mem
          allocated := insertKV st.allocated st.offset s
          offset := st.offset + s } := by
  obtain ⟨h1, h2, _⟩ := hInv
  rw [Inv, entries] at *
  simp only [insertKV]
  rw [List.pairwise_append] at h1
  obtain ⟨hPA, hPD, hX⟩ := h1
  refine ⟨?_, ?_, hlen⟩
  · rw [List.pairwise_append]
    refine ⟨?_, hPD, ?_⟩
    · rw [List.pairwise_cons]
      refine ⟨?_, hPA.sublist (eraseKey_sublist _ _)⟩
      intro q hq
      have hq' : q ∈ st.allocated := (eraseKey_sublist _ _).mem hq
      have hb := h2 q (List.mem_append_left _ hq')
      right
      exact hb
    · intro x hx y hy
      rcases List.mem_cons.mp hx with rfl | hx'
      · have hb := h2 y (List.mem_append_right _ hy)
        right
        exact hb
      · exact hX x ((eraseKey_sublist _ _).mem hx') y hy
  · intro p hp
    simp only [List.mem_append] at hp
    rcases hp with hpa | hpd
    · rcases List.mem_cons.mp hpa with rfl | hpa'
      · simp
      · have : p ∈ st.allocated := (eraseKey_sublist _ _).mem hpa'
        have := h2 p (List.mem_append_left _ this)
        omega
    · have := h2 p (List.mem_append_right _ hpd)
      omega

theorem inv_growAlloc {st : MemState} (s : Nat) (hInv : Inv st) :
    Inv (growAlloc st s).2 := by
  by_cases h1 : addrSpace ≤ st.offset + s
  · rw [growAlloc_eq_fail h1]; exact hInv
  · by_cases h2 : st.memory.length < st.offset + s
    · rw [growAlloc_eq_grow h1 h2]
      refine inv_bump hInv ?_
      rw [bufResize_length]
      exact roundUpPage_ge _
    · rw [growAlloc_eq_nogrow h1 h2]
      exact inv_bump hInv (by omega)

theorem inv_allocate {st : MemState} (s : Nat) (hInv : Inv st) :
    Inv (allocate st s).2 := by
  cases hf : findContaining st.deallocated s with
  | none => rw [allocate_grow_eq hf]; exact inv_growAlloc s hInv
  | some p =>
    obtain ⟨a, t⟩ := p
    obtain ⟨hmem, hat⟩ := findContaining_mem hf
    rw [allocate_reuse_eq hf]
    obtain ⟨h1, h2, h3⟩ := hInv
    rw [Inv, entries] at *
    rw [List.pairwise_append] at h1
    obtain ⟨hPA, hPD, hX⟩ := h1
    -- every allocation-table entry is disjoint from the chosen free chunk
    have hd1 : ∀ q ∈ st.allocated, EntDisj q (a, t) := fun q hq =>
      hX q hq (a, t) hmem
    -- every other free-table entry is disjoint from the chosen free chunk
    have hd2 : ∀ q ∈ st.deallocated, q.1 ≠ a → EntDisj q (a, t) := by
      intro q hq hne
      refine List.Pairwise.forall entDisj_symm hPD hq hmem ?_
      intro hcontra
      exact hne (by rw [hcontra])
    have haT : a + t ≤ st.offset := h2 (a, t) (List.mem_append_right _ hmem)
    have hsubElem : List.Sublist
        (eraseKey (eraseKey st.deallocated a) (a + s)) st.deallocated :=
      (eraseKey_sublist _ _).trans (eraseKey_sublist _ _)
    simp only [insertKV]
    by_cases hsplit : s < t
    · rw [if_pos hsplit]
      refine ⟨?_, ?_, h3⟩
      · rw [List.pairwise_append]
        refine ⟨?_, ?_, ?_⟩
        · rw [List.pairwise_cons]
          refine ⟨?_, hPA.sublist (eraseKey_sublist _ _)⟩
          intro q hq
          have hq' := mem_eraseKey.mp hq
          exact entDisj_symm ((entDisj_subrange hat (hd1 q hq'.1)).1)
        · rw [List.pairwise_cons]
          refine ⟨?_, hPD.sublist hsubElem⟩
          intro q hq
          have hq1 := mem_eraseKey.mp hq
          have hq2 := mem_eraseKey.mp hq1.1
          exact entDisj_symm
            ((entDisj_subrange hat (hd2 q hq2.1 hq2.2)).2)
        · intro x hx y hy
          rcases List.mem_cons.mp hx with rfl | hx'
          · rcases List.mem_cons.mp hy with rfl | hy'
            · left; simp
            · have hy1 := mem_eraseKey.mp hy'
              have hy2 := mem_eraseKey.mp hy1.1
              exact entDisj_symm
                ((entDisj_subrange hat (hd2 y hy2.1 hy2.2)).1)
          · have hxa := (mem_eraseKey.mp hx').1
            rcases List.mem_cons.mp hy with rfl | hy'
            · exact (entDisj_subrange hat (hd1 x hxa)).2
            · have hy1 := mem_eraseKey.mp hy'
              have hy2 := mem_eraseKey.mp hy1.1
              exact hX x hxa y hy2.1
      · intro p hp
        simp only [List.mem_append] at hp
        rcases hp with hpa | hpd
        · rcases List.mem_cons.mp hpa with rfl | hpa'
          · simp; omega
          · have : p ∈ st.allocated := (eraseKey_sublist _ _).mem hpa'
            exact h2 p (List.mem_append_left _ this)
        · rcases List.mem_cons.mp hpd with rfl | hpd'
          · simp; omega
          · have : p ∈ st.deallocated := hsubElem.mem hpd'
            exact h2 p (List.mem_append_right _ this)
    · rw [if_neg hsplit]
      refine ⟨?_, ?_, h3⟩
      · rw [List.pairwise_append]
        refine ⟨?_, hPD.sublist (eraseKey_sublist _ _), ?_⟩
        · rw [List.pairwise_cons]
          refine ⟨?_, hPA.sublist (eraseKey_sublist _ _)⟩
          intro q hq
          have hq' := mem_eraseKey.mp hq
          exact entDisj_symm ((entDisj_subrange hat (hd1 q hq'.1)).1)
        · intro x hx y hy
          have hy' := mem_eraseKey.mp hy
          rcases List.mem_cons.mp hx with rfl | hx'
          · exact entDisj_symm
              ((entDisj_subrange hat (hd2 y hy'.1 hy'.2)).1)
          · exact hX x (mem_eraseKey.mp hx').1 y hy'.1
      · intro p hp
        simp only [List.mem_append] at hp
        rcases hp with hpa | hpd
        · rcases List.mem_cons.mp hpa with rfl | hpa'
          · simp; omega
          · have : p ∈ st.allocated := (eraseKey_sublist _ _).mem hpa'
            exact h2 p (List.mem_append_left _ this)
        · have : p ∈ st.deallocated := (eraseKey_sublist _ _).mem hpd
          exact h2 p (List.mem_append_right _ this)

theorem findContaining_eq_none {t : Table} {s : Nat}
    (h : ∀ q ∈ t, q.2 < s) : findContaining t s = none := by
  cases hf : findContaining t s with
  | none => rfl
  | some p =>
    obtain ⟨hp, hps⟩ := findContaining_mem hf
    have := h p hp
    omega

theorem addrSpace_eq : addrSpace = 4294967296 := by norm_num [addrSpace]

/-- A little-endian host with the buffer based at address 0. -/
def hostLE : Host := ⟨Endian.little, 0⟩

/-- A big-endian host with the buffer based at address 0. -/
def hostBE : Host := ⟨Endian.big, 0⟩

/-- The state used to refute claim C7 as stated: allocate 4097 bytes (growing
the buffer to 8192), free them, then legally resize down to one page.  The
frontier (4097) now exceeds the buffer size (4096). -/
def cexC7 : MemState :=
  resize (deallocate (allocate (initMem 0) 4097).2 0).2 4096

/-- Claim C7 (amended): in every state reachable from a fresh manager by
allocate/deallocate/load/store calls and by resize calls that do not truncate
the buffer below the frontier, no two entries of the union of the allocation
table and the free table overlap, and every entry satisfies
`address + size ≤ offset_ ≤ memory_.size()`. -/
theorem c7_reachable_invariant {h : Host} {st : MemState}
    (hr : ReachableNoShrink h st) : Inv st := by
  induction hr with
  | init size => exact inv_initMem size
  | alloc size _ ih => exact inv_allocate size ih
  | dealloc ptr _ ih => exact inv_deallocate ptr ih
  | store n addr v _ ih =>
    rename_i st' _
    cases hs : storeW h n st' addr v with
    | none => exact ih
    | some st'' => exact inv_storeW ih hs
  | storeBlock addr bs _ hlen ih =>
    rename_i st' _
    cases hs : store128 st' addr bs with
    | none => exact ih
    | some st'' => exact inv_store128 ih hlen hs
  | resizeCall newSize _ _ hoff ih => exact inv_resize ih hoff

/-- Claim C7, as stated, is false: `cexC7` is reachable by in-contract calls
(the final `resize` asks for a whole page and no live allocation references a
discarded address), yet its frontier 4097 exceeds its buffer size 4096. -/
theorem c7_counterexample : Reachable hostLE cexC7 ∧ ¬ Inv cexC7 := by
  constructor
  · exact Reachable.resizeCall 4096
      (Reachable.dealloc 0 (Reachable.alloc 4097 (Reachable.init 0)))
      (by unfold pageSize; omega)
  · intro hInv
    have h3 := hInv.2.2
    have hlen : cexC7.memory.length = 4096 := bufResize_length _ _
    have hoff : cexC7.offset = 4097 := by
      have hoff0 : (initMem 0).offset = 0 := rfl
      have hlen0 : (initMem 0).memory.length = 4096 := by
        show (List.replicate (max pageSize (roundUpPage 0)) 0).length = 4096
        rw [List.length_replicate]
        decide
      have hf : findContaining (initMem 0).deallocated 4097 = none := rfl
      have h2 : (initMem 0).memory.length < (initMem 0).offset + 4097 := by
        omega
      have hnov : ¬ addrSpace ≤ (initMem 0).offset + 4097 := by
        rw [addrSpace_eq]
        omega
      have h1 : allocate (initMem 0) 4097 =
          (some (initMem 0).offset,
            { initMem 0 with
              memory := bufResize (initMem 0).memory
                (roundUpPage ((initMem 0).offset + 4097))
              allocated := insertKV (initMem 0).allocated (initMem 0).offset 4097
              offset := (initMem 0).offset + 4097 }) := by
        rw [allocate_grow_eq hf]
        exact growAlloc_eq_grow hnov h2
      have hd : lookupKey (allocate (initMem 0) 4097).2.allocated 0
          = some 4097 := by
        rw [h1]
        rfl
      have h4 := deallocate_eq_some hd
      show (deallocate (allocate (initMem 0) 4097).2 0).2.offset = 4097
      rw [h4, h1]
      rfl
    omega

/-! ### Claims about the typed access family -/

/-- Claim C1: a typed access of width `n` bytes whose end passes the buffer
size is an out-of-bounds fault for both load and store: no value is produced,
nothing is written, and the state is returned unchanged — never clamped or
wrapped.  `loadW`/`storeW` are the common bodies of `load8u` … `load64u` /
`store8` … `store64` (`n ∈ {1,2,4,8}`); the 16-byte block pair is covered by
the last conjunct. -/
theorem c1_out_of_bounds (h : Host) (st : MemState) (addr v n : Nat)
    (bs : List Nat) (hoob : st.memory.length < addr + n) :
    loadW h n st addr = (none, st) ∧
    (loadW h n st addr).1.map (toSigned (8 * n)) = none ∧
    storeW h n st addr v = none ∧
    (st.memory.length < addr + 16 →
      load128 st addr = (none, st) ∧ store128 st addr bs = none) := by
  have hn : ¬ (addr + n ≤ st.memory.length) := by omega
  refine ⟨?_, ?_, ?_, ?_⟩
  · unfold loadW
    rw [if_neg hn]
  · unfold loadW
    rw [if_neg hn]
    rfl
  · unfold storeW
    rw [if_neg hn]
  · intro h16
    have hn16 : ¬ (addr + 16 ≤ st.memory.length) := by omega
    constructor
    · unfold load128
      rw [if_neg hn16]
    · unfold store128
      rw [if_neg hn16]

theorem c1_out_of_bounds_witness :
    loadW hostLE 8 ⟨[0, 0, 0, 0], 0, [], []⟩ 0 =
      (none, ⟨[0, 0, 0, 0], 0, [], []⟩) ∧
    (loadW hostLE 8 ⟨[0, 0, 0, 0], 0, [], []⟩ 0).1.map (toSigned 64) = none ∧
    storeW hostLE 8 ⟨[0, 0, 0, 0], 0, [], []⟩ 0 7 = none ∧
    load128 ⟨[0, 0, 0, 0], 0, [], []⟩ 0 = (none, ⟨[0, 0, 0, 0], 0, [], []⟩) ∧
    store128 ⟨[0, 0, 0, 0], 0, [], []⟩ 0 (List.replicate 16 7) = none := by
  have h := c1_out_of_bounds hostLE ⟨[0, 0, 0, 0], 0, [], []⟩ 0 7 8
    (List.replicate 16 7) (by decide)
  have h128 := h.2.2.2 (by decide)
  exact ⟨h.1, h.2.1, h.2.2.1, h128.1, h128.2⟩

/-- Claim C10: every load is a pure read: the state a load hands back — the
whole record, hence buffer contents, buffer size, frontier and both tables —
is the state it was given, for all widths, signedness included. -/
theorem c10_loads_pure (h : Host) (st : MemState) (addr n : Nat) :
    (loadW h n st addr).2 = st ∧
    (load8u h st addr).2 = st ∧ (load8s h st addr).2 = st ∧
    (load16u h st addr).2 = st ∧ (load16s h st addr).2 = st ∧
    (load32u h st addr).2 = st ∧ (load32s h st addr).2 = st ∧
    (load64u h st addr).2 = st ∧ (load64s h st addr).2 = st ∧
    (load128 st addr).2 = st :=
  ⟨rfl, rfl, rfl, rfl, rfl, rfl, rfl, rfl, rfl, rfl⟩

/-- Claim C3: an in-bounds store of width `n` (`addr + n ≤ buffer size`)
followed by a load of the same width at the same address returns exactly the
stored value — for any host byte order and buffer base, aligned or not — and,
whenever the 16-byte access is in bounds, the 128-bit block pair round-trips
verbatim. -/
theorem c3_store_load_roundtrip (h : Host) (st : MemState) (addr v n : Nat)
    (bs : List Nat) (hb : addr + n ≤ st.memory.length)
    (hv : v < 2 ^ (8 * n)) :
    (∃ st', storeW h n st addr v = some st' ∧
      loadW h n st' addr = (some v, st') ∧
      (loadW h n st' addr).1.map (toSigned (8 * n))
        = some (toSigned (8 * n) v)) ∧
    (addr + 16 ≤ st.memory.length → bs.length = 16 →
      ∃ st', store128 st addr bs = some st' ∧
        load128 st' addr = (some bs, st')) := by
  constructor
  · refine ⟨{ st with memory := set h n st.memory addr v }, ?_, ?_, ?_⟩
    · unfold storeW
      rw [if_pos hb]
    · have hlen : (set h n st.memory addr v).length = st.memory.length := by
        rw [set_eq_writeBytes]
        exact writeBytes_length (by rw [hostBytes_length]; exact hb)
      show (if addr + n ≤ (set h n st.memory addr v).length then
          some (get h n (set h n st.memory addr v) addr) else none,
          { st with memory := set h n st.memory addr v })
        = (some v, { st with memory := set h n st.memory addr v })
      rw [if_pos (by rw [hlen]; exact hb), get_set_roundtrip h hb hv]
    · have hlen : (set h n st.memory addr v).length = st.memory.length := by
        rw [set_eq_writeBytes]
        exact writeBytes_length (by rw [hostBytes_length]; exact hb)
      show ((if addr + n ≤ (set h n st.memory addr v).length then
          some (get h n (set h n st.memory addr v) addr) else none).map
            (toSigned (8 * n)))
        = some (toSigned (8 * n) v)
      rw [if_pos (by rw [hlen]; exact hb), get_set_roundtrip h hb hv]
      rfl
  · intro hb16 hbs
    refine ⟨{ st with memory := writeBytes st.memory addr bs }, ?_, ?_⟩
    · unfold store128
      rw [if_pos hb16]
    · have hlen : (writeBytes st.memory addr bs).length = st.memory.length :=
        writeBytes_length (by rw [hbs]; exact hb16)
      show (if addr + 16 ≤ (writeBytes st.memory addr bs).length then
          some (readBytes (writeBytes st.memory addr bs) addr 16) else none,
          { st with memory := writeBytes st.memory addr bs })
        = (some bs, { st with memory := writeBytes st.memory addr bs })
      rw [if_pos (by rw [hlen]; exact hb16)]
      rw [show (16 : Nat) = bs.length from hbs.symm]
      rw [readBytes_writeBytes st.memory addr bs (by omega)]

theorem c3_store_load_roundtrip_witness :
    (∃ st', storeW hostLE 4 ⟨List.replicate 16 0, 0, [], []⟩ 12 3735928559
        = some st' ∧
      loadW hostLE 4 st' 12 = (some 3735928559, st') ∧
      (loadW hostLE 4 st' 12).1.map (toSigned (8 * 4))
        = some (toSigned (8 * 4) 3735928559)) ∧
    (∃ st', store128 ⟨List.replicate 16 0, 0, [], []⟩ 0 (List.replicate 16 7)
        = some st' ∧
      load128 st' 0 = (some (List.replicate 16 7), st')) := by
  have h1 := c3_store_load_roundtrip hostLE ⟨List.replicate 16 0, 0, [], []⟩
    12 3735928559 4 [] (by decide) (by decide)
  have h2 := c3_store_load_roundtrip hostLE ⟨List.replicate 16 0, 0, [], []⟩
    0 0 1 (List.replicate 16 7) (by decide) (by decide)
  exact ⟨h1.1, h2.2 (by decide) (by decide)⟩

/-- Claim C2 fails on the source `set`/`get`: both branches store the host's
object representation, so the byte order is the host's, not a fixed
little-endian order.  On a big-endian host `store16(0, 258)` puts byte
`1 = 258 >>> 8` at offset 0 where the little-endian contract requires
`2 = 258 % 256` (which the little-endian host does put there).  The two
branches of `set` and of `get` do agree with each other on every host. -/
theorem c2_host_byte_order :
    (set hostBE 2 (List.replicate 16 0) 0 258)[0]? = some 1 ∧
    (set hostLE 2 (List.replicate 16 0) 0 258)[0]? = some 2 ∧
    (258 : Nat) % 256 = 2 ∧ (1 : Nat) ≠ 2 ∧
    (∀ h n m a v, setDirect h n m a v = setMemcpy h n m a v) ∧
    (∀ h n m a, getDirect h n m a = getMemcpy h n m a) :=
  ⟨rfl, rfl, rfl, by decide, fun _ _ _ _ _ => rfl, fun _ _ _ _ => rfl⟩

/-! ### Claims about the allocator -/

/-- Claim C4: `deallocate` of an address that is not an allocation-table key
fails, returning no value and mutating nothing; of a live address it moves the
`{ptr, size}` entry to the free table and returns the size; a second
`deallocate` of the same address fails and leaves the state as it was after
the first. -/
theorem c4_deallocate_contract (st : MemState) (ptr : Nat) :
    (lookupKey st.allocated ptr = none → deallocate st ptr = (none, st)) ∧
    (∀ s, lookupKey st.allocated ptr = some s →
      deallocate st ptr =
        (some s,
          { st with
            allocated := eraseKey st.allocated ptr
            deallocated := insertKV st.deallocated ptr s }) ∧
      deallocate (deallocate st ptr).2 ptr = (none, (deallocate st ptr).2)) := by
  refine ⟨deallocate_eq_none, ?_⟩
  intro s hl
  refine ⟨deallocate_eq_some hl, ?_⟩
  apply deallocate_eq_none
  rw [deallocate_eq_some hl]
  exact lookupKey_eraseKey _ _

theorem c4_deallocate_contract_witness :
    deallocate (⟨[], 0, [(0, 10)], []⟩ : MemState) 999 =
      (none, ⟨[], 0, [(0, 10)], []⟩) ∧
    deallocate (⟨[], 0, [(0, 10)], []⟩ : MemState) 0 =
      (some 10, ⟨[], 0, [], [(0, 10)]⟩) ∧
    deallocate (deallocate (⟨[], 0, [(0, 10)], []⟩ : MemState) 0).2 0 =
      (none, (deallocate (⟨[], 0, [(0, 10)], []⟩ : MemState) 0).2) := by
  have h1 := (c4_deallocate_contract ⟨[], 0, [(0, 10)], []⟩ 999).1 (by decide)
  have h2 := (c4_deallocate_contract ⟨[], 0, [(0, 10)], []⟩ 0).2 10 (by decide)
  refine ⟨h1, ?_, h2.2⟩
  rw [h2.1]
  rfl

/-- Claim C5: when the free table holds a chunk of size at least `s > 0`,
`allocate s` returns the best-fit chunk — smallest adequate size, ties broken
by the lowest address — removes it from the free table, re-inserts the tail
`{a + s, t - s}` when the chunk is strictly larger (a zero-length remainder is
discarded), and records `{a, s}` as allocated. -/
theorem c5_best_fit_reuse (st : MemState) (s : Nat) ( _hs : 0 < s)
    (q : Nat × Nat) (hq : q ∈ st.deallocated) (hqs : s ≤ q.2) :
    ∃ a t, findContaining st.deallocated s = some (a, t) ∧
      (a, t) ∈ st.deallocated ∧ s ≤ t ∧
      (∀ r ∈ st.deallocated, s ≤ r.2 → t < r.2 ∨ (t = r.2 ∧ a ≤ r.1)) ∧
      allocate st s =
        (some a,
          { st with
            allocated := insertKV st.allocated a s
            deallocated :=
              if s < t then
                insertKV (eraseKey st.deallocated a) (a + s) (t - s)
              else eraseKey st.deallocated a }) := by
  have hsome := findContaining_isSome hq hqs
  cases hf : findContaining st.deallocated s with
  | none => rw [hf] at hsome; simp at hsome
  | some p =>
    obtain ⟨a, t⟩ := p
    obtain ⟨hmem, hst⟩ := findContaining_mem hf
    exact ⟨a, t, rfl, hmem, hst, findContaining_min hf, allocate_reuse_eq hf⟩

theorem c5_best_fit_reuse_witness :
    ∃ a t,
      findContaining (⟨[], 4100, [], [(0, 10)]⟩ : MemState).deallocated 5
        = some (a, t) ∧
      (a, t) ∈ (⟨[], 4100, [], [(0, 10)]⟩ : MemState).deallocated ∧ 5 ≤ t ∧
      (∀ r ∈ (⟨[], 4100, [], [(0, 10)]⟩ : MemState).deallocated,
        5 ≤ r.2 → t < r.2 ∨ (t = r.2 ∧ a ≤ r.1)) ∧
      allocate ⟨[], 4100, [], [(0, 10)]⟩ 5 =
        (some a,
          { (⟨[], 4100, [], [(0, 10)]⟩ : MemState) with
            allocated :=
              insertKV (⟨[], 4100, [], [(0, 10)]⟩ : MemState).allocated a 5
            deallocated :=
              if 5 < t then
                insertKV
                  (eraseKey
                    (⟨[], 4100, [], [(0, 10)]⟩ : MemState).deallocated a)
                  (a + 5) (t - 5)
              else
                eraseKey
                  (⟨[], 4100, [], [(0, 10)]⟩ : MemState).deallocated a }) :=
  c5_best_fit_reuse ⟨[], 4100, [], [(0, 10)]⟩ 5 (by decide) (0, 10)
    (by decide) (by decide)

/-- Claim C6: with no adequate free chunk and the request representable,
`allocate s` bump-allocates: it returns the old frontier, records
`{frontier, s}`, advances the frontier by `s`, and — exactly when
`frontier + s` exceeds the buffer size — first grows the buffer to
`roundUpPage (frontier + s)`, the smallest page multiple at least
`frontier + s`. -/
theorem c6_bump_allocate (st : MemState) (s : Nat) ( _hs : 0 < s)
    (hnofit : ∀ q ∈ st.deallocated, q.2 < s)
    (hrep : st.offset + s < addrSpace) :
    allocate st s =
      (some st.offset,
        { st with
          memory :=
            if st.memory.length < st.offset + s then
              bufResize st.memory (roundUpPage (st.offset + s))
            else st.memory
          allocated := insertKV st.allocated st.offset s
          offset := st.offset + s }) ∧
    st.offset + s ≤ roundUpPage (st.offset + s) ∧
    roundUpPage (st.offset + s) % pageSize = 0 ∧
    (∀ m, st.offset + s ≤ m → m % pageSize = 0 →
      roundUpPage (st.offset + s) ≤ m) := by
  have hf := findContaining_eq_none hnofit
  refine ⟨?_, roundUpPage_ge _, roundUpPage_dvd _,
    fun m h1 h2 => roundUpPage_min h1 h2⟩
  rw [allocate_grow_eq hf]
  by_cases hg : st.memory.length < st.offset + s
  · rw [growAlloc_eq_grow (by omega) hg, if_pos hg]
  · rw [growAlloc_eq_nogrow (by omega) hg, if_neg hg]

theorem bump_memory_length (st : MemState) (s : Nat) :
    ({ st with
        memory :=
          if st.memory.length < st.offset + s then
            bufResize st.memory (roundUpPage (st.offset + s))
          else st.memory
        allocated := insertKV st.allocated st.offset s
        offset := st.offset + s } : MemState).memory.length
      = if st.memory.length < st.offset + s then roundUpPage (st.offset + s)
        else st.memory.length := by
  by_cases hg : st.memory.length < st.offset + s
  · simp only [if_pos hg]
    exact bufResize_length _ _
  · simp only [if_neg hg]

theorem c6_bump_allocate_witness :
    (allocate ⟨[0, 0], 10, [(0, 10)], []⟩ 4090).1 = some 10 ∧
    (allocate ⟨[0, 0], 10, [(0, 10)], []⟩ 4090).2.offset = 4100 ∧
    (allocate ⟨[0, 0], 10, [(0, 10)], []⟩ 4090).2.memory.length = 8192 := by
  have h := c6_bump_allocate ⟨[0, 0], 10, [(0, 10)], []⟩ 4090
    (by decide) (by decide) (by decide)
  refine ⟨?_, ?_, ?_⟩
  · rw [h.1]
  · rw [h.1]
  · rw [h.1, bump_memory_length, if_pos (by decide)]
    decide

/-- Claim C8: growing the buffer — an explicit `resize` to any size above the
current one, or the growth `allocate` performs internally — keeps every byte
below the old size and zero-fills every new byte, and `resize` itself changes
neither table nor the frontier. -/
theorem c8_growth_preserves (st : MemState) (n s : Nat)
    (hgrow : st.memory.length < n) :
    (∀ i < st.memory.length, (resize st n).memory[i]? = st.memory[i]?) ∧
    (∀ i, st.memory.length ≤ i → i < n → (resize st n).memory[i]? = some 0) ∧
    (resize st n).allocated = st.allocated ∧
    (resize st n).deallocated = st.deallocated ∧
    (resize st n).offset = st.offset ∧
    ((∀ q ∈ st.deallocated, q.2 < s) → st.offset + s < addrSpace →
      st.memory.length < st.offset + s →
      (∀ i < st.memory.length, (allocate st s).2.memory[i]? = st.memory[i]?) ∧
      (∀ i, st.memory.length ≤ i → i < roundUpPage (st.offset + s) →
        (allocate st s).2.memory[i]? = some 0)) := by
  have hle : st.memory.length ≤ n := by omega
  refine ⟨?_, ?_, rfl, rfl, rfl, ?_⟩
  · intro i hi
    exact bufResize_get_low hle hi
  · intro i h1 h2
    exact bufResize_get_high hle h1 h2
  · intro hnofit hrep hneed
    have hf := findContaining_eq_none hnofit
    have halloc : allocate st s =
        (some st.offset,
          { st with
            memory := bufResize st.memory (roundUpPage (st.offset + s))
            allocated := insertKV st.allocated st.offset s
            offset := st.offset + s }) := by
      rw [allocate_grow_eq hf]
      exact growAlloc_eq_grow (by omega) hneed
    have hle2 : st.memory.length ≤ roundUpPage (st.offset + s) := by
      have := roundUpPage_ge (st.offset + s)
      omega
    constructor
    · intro i hi
      rw [halloc]
      exact bufResize_get_low hle2 hi
    · intro i h1 h2
      rw [halloc]
      exact bufResize_get_high hle2 h1 h2

theorem c8_growth_preserves_witness :
    (resize (⟨[5, 6], 2, [], []⟩ : MemState) 4).memory[1]? = some 6 ∧
    (resize (⟨[5, 6], 2, [], []⟩ : MemState) 4).memory[3]? = some 0 ∧
    (allocate (⟨[5, 6], 2, [], []⟩ : MemState) 1).2.memory[1]? = some 6 ∧
    (allocate (⟨[5, 6], 2, [], []⟩ : MemState) 1).2.memory[4095]? = some 0 := by
  have h := c8_growth_preserves ⟨[5, 6], 2, [], []⟩ 4 1 (by decide)
  have halloc := h.2.2.2.2.2 (by decide) (by decide) (by decide)
  refine ⟨?_, h.2.1 3 (by decide) (by decide), ?_,
    halloc.2 4095 (by decide) (by decide)⟩
  · rw [h.1 1 (by decide)]
    rfl
  · rw [halloc.1 1 (by decide)]
    rfl

/-- Claim C9: an allocation whose required growth would pass the end of the
32-bit address space fails — `allocate` returns no address and changes
nothing; the frontier arithmetic never wraps. -/
theorem c9_overflow_fails (st : MemState) (s : Nat)
    (hnofit : ∀ q ∈ st.deallocated, q.2 < s)
    (hov : addrSpace ≤ st.offset + s) :
    allocate st s = (none, st) := by
  rw [allocate_grow_eq (findContaining_eq_none hnofit)]
  exact growAlloc_eq_fail hov

theorem c9_overflow_fails_witness :
    allocate (⟨[], 0, [], []⟩ : MemState) 4294967296 =
      (none, ⟨[], 0, [], []⟩) :=
  c9_overflow_fails ⟨[], 0, [], []⟩ 4294967296 (by decide)
    (by rw [addrSpace_eq])

theorem c7_reachable_invariant_witness :
    Inv (deallocate (allocate (initMem 0) 10).2 0).2 :=
  @c7_reachable_invariant hostLE _
    (ReachableNoShrink.dealloc 0
      (ReachableNoShrink.alloc 10 (ReachableNoShrink.init 0)))

end KagomeWasm
